import Mathlib

/-!
Verification of the hotel-merger service (`src/hotel_services.py`,
`src/data_classes.py`) against its natural-language specification.

Embedding conventions:
* Python strings are lists of Unicode code points (`PyStr := List Nat`);
  `pstr` injects a Lean string literal. `str.lower`, `str.strip` and
  `str.split` are modelled on their ASCII behaviour (all strings handled
  by the merge engine's documented behaviour are ASCII).
* Python `list(set(xs))` returns the elements of `xs` without duplicates in
  an unspecified order; it is modelled as `List.dedup` (first occurrence
  kept).  Every property proved about such a result is order-insensitive.
* Python floats (`lat`/`lng`) never enter any claim; they are modelled as
  `Option Int` with Python's truthiness (`None` and `0` falsy) preserved.
* The `hotels` dict of `HotelsService` is modelled as an insertion-ordered
  association list keyed by the stored record's `id` field, matching the
  insertion-order semantics of a Python `dict`.
-/

abbrev PyStr : Type := List Nat

/-- A Lean string literal as a Python string (list of code points). -/
def pstr (s : String) : PyStr := s.toList.map Char.toNat

/-- ASCII uppercase letter, the `[A-Z]` class of the normalizer's regex. -/
def isUpperA (c : Nat) : Prop := 65 ≤ c ∧ c ≤ 90

instance (c : Nat) : Decidable (isUpperA c) := inferInstanceAs (Decidable (_ ∧ _))

/-- ASCII lowercase letter, the `[a-z]` class of the normalizer's regex. -/
def isLowerA (c : Nat) : Prop := 97 ≤ c ∧ c ≤ 122

instance (c : Nat) : Decidable (isLowerA c) := inferInstanceAs (Decidable (_ ∧ _))

/-- The characters Python's `str.split()` and `str.strip()` treat as
whitespace (ASCII): space, tab, newline, carriage return, vertical tab,
form feed. -/
def isPySpace (c : Nat) : Prop := c = 32 ∨ c = 9 ∨ c = 10 ∨ c = 13 ∨ c = 11 ∨ c = 12

instance (c : Nat) : Decidable (isPySpace c) := inferInstanceAs (Decidable (_ ∨ _))

/-- `str.lower` on one character (ASCII). -/
def lowerN (c : Nat) : Nat := if isUpperA c then c + 32 else c

/-- `str.lower` (ASCII). -/
def lowerL (l : List Nat) : List Nat := l.map lowerN

/-- `str.strip()`: drop leading and trailing whitespace. -/
def pyStrip (l : List Nat) : List Nat :=
  ((l.dropWhile (fun c => decide (isPySpace c))).reverse.dropWhile
    (fun c => decide (isPySpace c))).reverse

/-- `re.sub(r'([a-z])([A-Z])', r'\1 \2', s)`: insert a space (code 32) at
every boundary where an ASCII lowercase letter is immediately followed by an
ASCII uppercase letter.  Matches of the two-character pattern can never
overlap (the second character of a match is uppercase, the first character
of a match lowercase), so the left-to-right non-overlapping replacement is
exactly the insertion at every such boundary. -/
def camel : List Nat → List Nat
  | [] => []
  | [c] => [c]
  | a :: b :: rest =>
    if isLowerA a ∧ isUpperA b then a :: 32 :: camel (b :: rest)
    else a :: camel (b :: rest)

/-- Helper of `words`: `acc` holds the current word reversed. -/
def wordsAux : List Nat → List Nat → List (List Nat)
  | [], acc => if acc.isEmpty then [] else [acc.reverse]
  | c :: cs, acc =>
    if isPySpace c then
      (if acc.isEmpty then wordsAux cs [] else acc.reverse :: wordsAux cs [])
    else wordsAux cs (c :: acc)

/-- `str.split()` with no separator: the maximal whitespace-free runs. -/
def words (l : List Nat) : List (List Nat) := wordsAux l []

/-- `' '.join(ws)`. -/
def joinWords : List (List Nat) → List Nat
  | [] => []
  | [w] => w
  | w :: ws => w ++ 32 :: joinWords ws

/-- `HotelsService.normalize_amenity`: the "wifi" short-circuit, then
camelCase segmentation, lowercasing, and whitespace collapsing. -/
def normalize_amenity (l : PyStr) : PyStr :=
  if lowerL (pyStrip l) = pstr "wifi" then pstr "wifi"
  else joinWords (words (lowerL (camel l)))

/-- `HotelsService.merge_amenities`: normalize both lists and take the
deduplicated union (`list(set(existing + new))`, order-insensitively). -/
def merge_amenities (existing new : List PyStr) : List PyStr :=
  ((existing.map normalize_amenity) ++ (new.map normalize_amenity)).dedup

example : normalize_amenity (pstr "WiFi") = pstr "wifi" := by decide
example : normalize_amenity (pstr "BusinessCenter") = pstr "business center" := by decide
example : normalize_amenity (pstr "  Dry  Cleaning ") = pstr "dry cleaning" := by decide
example : merge_amenities [pstr "Pool", pstr "WiFi"] [pstr "pool"] = [pstr "wifi", pstr "pool"] := by decide

/-- The `Location` dataclass.  `lat`/`lng` are Python floats or `None`; no
claim depends on float arithmetic, so their values are modelled as `Option
Int` with Python truthiness (`None` and `0` falsy) preserved. -/
structure Location where
  lat : Option Int
  lng : Option Int
  address : PyStr
  city : PyStr
  country : PyStr
deriving DecidableEq

/-- The `Image` dataclass. -/
structure Image where
  link : PyStr
  description : PyStr
deriving DecidableEq

/-- The `Images` dataclass: three independent buckets. -/
structure Images where
  rooms : List Image
  site : List Image
  amenities : List Image
deriving DecidableEq

/-- The `Amenities` dataclass. -/
structure Amenities where
  general : List PyStr
  room : List PyStr
deriving DecidableEq

/-- The `Hotel` dataclass. -/
structure Hotel where
  id : PyStr
  destination_id : Int
  name : PyStr
  location : Location
  description : PyStr
  amenities : Amenities
  images : Images
  booking_conditions : List PyStr
deriving DecidableEq

/-- Python `a or b` on a numeric optional (`None` and `0` are falsy). -/
def pyOrNum (a b : Option Int) : Option Int :=
  match a with
  | none => b
  | some v => if v = 0 then b else a

/-- Python `a or b` on strings (the empty string is falsy). -/
def pyOrS (a b : PyStr) : PyStr := if a = [] then b else a

/-- `str.split(', ')`: split on the two-character separator comma-space,
left to right, non-overlapping, keeping empty parts.  The accumulator holds
the current part reversed. -/
def splitCS : List Nat → List Nat → List (List Nat)
  | [], acc => [acc.reverse]
  | 44 :: 32 :: rest, acc => acc.reverse :: splitCS rest []
  | c :: rest, acc => splitCS rest (c :: acc)

example : splitCS (pstr "123 Main St, Suite 5") [] = [pstr "123 Main St", pstr "Suite 5"] := by decide
example : splitCS (pstr "") [] = [pstr ""] := by decide
example : splitCS (pstr "a, , b") [] = [pstr "a", pstr "", pstr "b"] := by decide

/-- `HotelsService.merge_location`: existing data preferred for `lat`,
`lng`, `city`; the longer string wins for `country` (`new` on a tie, since
the comparison is strict `>`); the address keeps the existing address and
appends each nonempty comma-space-separated segment of the new address that
is not literally among the existing address's segments. -/
def merge_location (existing new : Location) : Location :=
  let existing_address := existing.address
  let new_address := new.address
  let existing_address_list := splitCS existing_address []
  let new_address_list := splitCS new_address []
  { lat := pyOrNum existing.lat new.lat
    lng := pyOrNum existing.lng new.lng
    city := pyOrS existing.city new.city
    country :=
      if new.country.length < existing.country.length then existing.country
      else new.country
    address :=
      if existing_address ≠ [] then
        new_address_list.foldl
          (fun acc item =>
            if item ≠ [] ∧ item ∉ existing_address_list then acc ++ (44 :: 32 :: item)
            else acc)
          existing_address
      else new_address }

example :
    (merge_location
      { lat := none, lng := none, address := pstr "123 Main St", city := [], country := pstr "US" }
      { lat := none, lng := none, address := pstr "123 Main St, Suite 5", city := [],
        country := pstr "United States" }).address = pstr "123 Main St, Suite 5" := by
  decide

/-- Insertion of one image into the keyed map of a bucket merge: a Python
dict keeps the first-insertion position of a key and a duplicate key
overwrites the stored value. -/
def upsertImg (acc : List Image) (img : Image) : List Image :=
  if acc.any (fun e => decide (e.link = img.link)) then
    acc.map (fun e => if e.link = img.link then img else e)
  else acc ++ [img]

/-- `list({img.link: img for img in (a + b)}.values())`: union of two image
buckets keyed by `link`, first-seen key order, last write wins. -/
def mergeImages (a b : List Image) : List Image :=
  (a ++ b).foldl upsertImg []

example :
    mergeImages [{ link := pstr "x", description := pstr "a" }]
      [{ link := pstr "x", description := pstr "b" }] =
      [{ link := pstr "x", description := pstr "b" }] := by decide

/-- The merge step of `merge_and_save` for a hotel whose id is already
stored: every field update of the `else` branch, applied to the stored
record. -/
def mergeHotel (existing hotel : Hotel) : Hotel :=
  { existing with
    amenities :=
      { general := merge_amenities existing.amenities.general hotel.amenities.general
        room := merge_amenities existing.amenities.room hotel.amenities.room }
    description := pyOrS existing.description hotel.description
    location := merge_location existing.location hotel.location
    images :=
      { rooms := mergeImages existing.images.rooms hotel.images.rooms
        site := mergeImages existing.images.site hotel.images.site
        amenities := mergeImages existing.images.amenities hotel.images.amenities }
    booking_conditions := (existing.booking_conditions ++ hotel.booking_conditions).dedup }

/-- The catalog `self.hotels`: a Python dict modelled as an insertion-ordered
list of records, each keyed by its own `id` field. -/
abbrev Catalog : Type := List Hotel

/-- One iteration of the `merge_and_save` loop: first-seen records are
appended as-is, otherwise the stored record with that id is merged in
place. -/
def saveOne (state : Catalog) (hotel : Hotel) : Catalog :=
  if state.any (fun e => decide (e.id = hotel.id)) then
    state.map (fun e => if e.id = hotel.id then mergeHotel e hotel else e)
  else state ++ [hotel]

/-- `HotelsService.merge_and_save`, folding a batch into the catalog. -/
def merge_and_save (state : Catalog) (hotel_list : List Hotel) : Catalog :=
  hotel_list.foldl saveOne state

/-- `dict.get`-style lookup of the stored record with a given id. -/
def lookupId (state : Catalog) (i : PyStr) : Option Hotel :=
  state.find? (fun e => decide (e.id = i))

/-- Python `str(i)` for an integer, via a fuel-bounded decimal expansion. -/
def natStrAux : Nat → Nat → List Nat
  | 0, n => [n % 10 + 48]
  | fuel + 1, n => if n < 10 then [n + 48] else natStrAux fuel (n / 10) ++ [n % 10 + 48]

/-- `str(n)` for a natural number. -/
def natStr (n : Nat) : List Nat := natStrAux n n

/-- `str(i)` for a Python int. -/
def intStr (i : Int) : PyStr := if i < 0 then 45 :: natStr i.natAbs else natStr i.natAbs

example : intStr 5 = pstr "5" := by decide
example : intStr 5732 = pstr "5732" := by decide
example : intStr (-41) = pstr "-41" := by decide
example : intStr 0 = pstr "0" := by decide

/-- Python truthiness of the `find` arguments: `None` (the CLI's `none`) and
the empty list are falsy. -/
def pyFalsyList (o : Option (List PyStr)) : Bool :=
  match o with
  | none => true
  | some l => l.isEmpty

/-- `HotelsService.find`: if either filter is empty or absent return all
stored hotels, otherwise keep the hotels whose id is among `hotel_ids` and
whose `destination_id`, as its string form, is among `destination_ids`. -/
def find (state : Catalog) (hotel_ids destination_ids : Option (List PyStr)) : List Hotel :=
  if pyFalsyList hotel_ids || pyFalsyList destination_ids then state
  else
    state.filter (fun h =>
      decide (h.id ∈ hotel_ids.getD []) &&
      decide (intStr h.destination_id ∈ destination_ids.getD []))

/-! ### Character-level facts about the ASCII lowercasing -/

theorem lowerN_not_upper (c : Nat) : ¬ isUpperA (lowerN c) := by
  unfold lowerN
  split
  · rename_i h
    simp only [isUpperA] at h ⊢
    omega
  · rename_i h
    exact h

theorem lowerN_idem (c : Nat) : lowerN (lowerN c) = lowerN c := by
  have h := lowerN_not_upper c
  rw [show lowerN (lowerN c) = if isUpperA (lowerN c) then lowerN c + 32 else lowerN c from rfl,
    if_neg h]

theorem map_eq_self_of_fixed {f : Nat → Nat} : ∀ {l : List Nat}, (∀ c ∈ l, f c = c) → l.map f = l := by
  intro l
  induction l with
  | nil => intro _; rfl
  | cons a t ih =>
    intro h
    simp only [List.map_cons]
    rw [h a (by simp), ih (fun c hc => h c (by simp [hc]))]

/-! ### The word splitter and its interaction with joining -/

theorem wordsAux_mem : ∀ (l acc : List Nat), (∀ c ∈ acc, ¬ isPySpace c) →
    ∀ w ∈ wordsAux l acc, w ≠ [] ∧ ∀ c ∈ w, ¬ isPySpace c ∧ (c ∈ l ∨ c ∈ acc) := by
  intro l
  induction l with
  | nil =>
    intro acc hacc w hw
    simp only [wordsAux] at hw
    split at hw
    · simp at hw
    · rename_i hne
      rw [List.isEmpty_eq_true] at hne
      simp only [List.mem_singleton] at hw
      subst hw
      refine ⟨by simp [hne], ?_⟩
      intro c hc
      rw [List.mem_reverse] at hc
      exact ⟨hacc c hc, Or.inr hc⟩
  | cons x xs ih =>
    intro acc hacc w hw
    simp only [wordsAux] at hw
    split at hw
    · split at hw
      · obtain ⟨h1, h2⟩ := ih [] (by simp) w hw
        refine ⟨h1, fun c hc => ⟨(h2 c hc).1, ?_⟩⟩
        rcases (h2 c hc).2 with h | h
        · exact Or.inl (List.mem_cons_of_mem _ h)
        · simp at h
      · rename_i hne
        rw [List.isEmpty_eq_true] at hne
        rcases List.mem_cons.mp hw with h | h
        · subst h
          refine ⟨by simp [hne], ?_⟩
          intro c hc
          rw [List.mem_reverse] at hc
          exact ⟨hacc c hc, Or.inr hc⟩
        · obtain ⟨h1, h2⟩ := ih [] (by simp) w h
          refine ⟨h1, fun c hc => ⟨(h2 c hc).1, ?_⟩⟩
          rcases (h2 c hc).2 with h' | h'
          · exact Or.inl (List.mem_cons_of_mem _ h')
          · simp at h'
    · rename_i hx
      have hacc' : ∀ c ∈ x :: acc, ¬ isPySpace c := by
        intro c hc
        rcases List.mem_cons.mp hc with h | h
        · subst h; exact hx
        · exact hacc c h
      obtain ⟨h1, h2⟩ := ih (x :: acc) hacc' w hw
      refine ⟨h1, fun c hc => ⟨(h2 c hc).1, ?_⟩⟩
      rcases (h2 c hc).2 with h' | h'
      · exact Or.inl (List.mem_cons_of_mem _ h')
      · rcases List.mem_cons.mp h' with h'' | h''
        · subst h''; exact Or.inl (by simp)
        · exact Or.inr h''

theorem words_mem {l : List Nat} :
    ∀ w ∈ words l, w ≠ [] ∧ ∀ c ∈ w, ¬ isPySpace c ∧ c ∈ l := by
  intro w hw
  obtain ⟨h1, h2⟩ := wordsAux_mem l [] (by simp) w hw
  refine ⟨h1, fun c hc => ⟨(h2 c hc).1, ?_⟩⟩
  rcases (h2 c hc).2 with h | h
  · exact h
  · simp at h

theorem wordsAux_word_run : ∀ (w : List Nat), (∀ c ∈ w, ¬ isPySpace c) →
    ∀ (l acc : List Nat), wordsAux (w ++ l) acc = wordsAux l (w.reverse ++ acc) := by
  intro w
  induction w with
  | nil => intro _ l acc; simp
  | cons x t ih =>
    intro hw l acc
    have hx : ¬ isPySpace x := hw x (by simp)
    show wordsAux (x :: (t ++ l)) acc = _
    simp only [wordsAux]
    rw [if_neg hx, ih (fun c hc => hw c (by simp [hc])) l (x :: acc)]
    congr 1
    simp [List.reverse_cons, List.append_assoc]

theorem joinWords_singleton (w : List Nat) : joinWords [w] = w := rfl

theorem joinWords_cons_cons (w v : List Nat) (ws : List (List Nat)) :
    joinWords (w :: v :: ws) = w ++ 32 :: joinWords (v :: ws) := rfl

theorem words_joinWords : ∀ (ws : List (List Nat)),
    (∀ w ∈ ws, w ≠ [] ∧ ∀ c ∈ w, ¬ isPySpace c) → words (joinWords ws) = ws := by
  intro ws
  induction ws with
  | nil => intro _; rfl
  | cons w vs ih =>
    intro h
    obtain ⟨hw1, hw2⟩ := h w (by simp)
    cases vs with
    | nil =>
      rw [joinWords_singleton]
      unfold words
      have hpre := wordsAux_word_run w hw2 [] []
      rw [List.append_nil] at hpre
      rw [hpre]
      simp only [wordsAux]
      rw [if_neg (by simp [List.isEmpty_eq_true, hw1])]
      simp
    | cons v vs' =>
      rw [joinWords_cons_cons]
      unfold words
      rw [wordsAux_word_run w hw2 (32 :: joinWords (v :: vs')) []]
      simp only [wordsAux]
      rw [if_pos (show isPySpace 32 from Or.inl rfl)]
      rw [if_neg (by simp [List.isEmpty_eq_true, hw1])]
      rw [List.append_nil, List.reverse_reverse]
      have := ih (fun u hu => h u (by simp [hu]))
      unfold words at this
      rw [this]

theorem mem_joinWords : ∀ {ws : List (List Nat)} {c : Nat},
    c ∈ joinWords ws → c = 32 ∨ ∃ w ∈ ws, c ∈ w := by
  intro ws
  induction ws with
  | nil => intro c hc; simp [joinWords] at hc
  | cons w vs ih =>
    intro c hc
    cases vs with
    | nil => exact Or.inr ⟨w, by simp, hc⟩
    | cons v vs' =>
      rw [joinWords_cons_cons] at hc
      rcases List.mem_append.mp hc with h | h
      · exact Or.inr ⟨w, by simp, h⟩
      · rcases List.mem_cons.mp h with h | h
        · exact Or.inl h
        · rcases ih h with h' | ⟨u, hu, hcu⟩
          · exact Or.inl h'
          · exact Or.inr ⟨u, by simp [hu], hcu⟩

theorem joinWords_head_not_space : ∀ (ws : List (List Nat)),
    (∀ w ∈ ws, w ≠ [] ∧ ∀ c ∈ w, ¬ isPySpace c) →
    ∀ c, (joinWords ws).head? = some c → ¬ isPySpace c := by
  intro ws
  cases ws with
  | nil => intro _ c hc; simp [joinWords] at hc
  | cons w vs =>
    intro h c hc
    obtain ⟨hw1, hw2⟩ := h w (by simp)
    cases vs with
    | nil =>
      rw [joinWords_singleton] at hc
      apply hw2
      cases w with
      | nil => simp at hc
      | cons a t => simp at hc; simp [hc]
    | cons v vs' =>
      rw [joinWords_cons_cons] at hc
      apply hw2
      cases w with
      | nil => exact absurd rfl hw1
      | cons a t => simp at hc; simp [hc]

theorem mem_of_headSome : ∀ {l : List Nat} {c : Nat}, l.head? = some c → c ∈ l := by
  intro l c h
  cases l with
  | nil => simp at h
  | cons a t =>
    simp only [List.head?_cons, Option.some.injEq] at h
    simp [h]

theorem joinWords_revhead_not_space : ∀ (ws : List (List Nat)),
    (∀ w ∈ ws, w ≠ [] ∧ ∀ c ∈ w, ¬ isPySpace c) →
    ∀ c, (joinWords ws).reverse.head? = some c → ¬ isPySpace c := by
  intro ws
  induction ws with
  | nil => intro _ c hc; simp [joinWords] at hc
  | cons w vs ih =>
    intro h c hc
    obtain ⟨hw1, hw2⟩ := h w (by simp)
    cases vs with
    | nil =>
      rw [joinWords_singleton] at hc
      exact hw2 c (by simpa using mem_of_headSome hc)
    | cons v vs' =>
      have hJ : joinWords (v :: vs') ≠ [] := by
        cases vs' with
        | nil => exact (h v (by simp)).1
        | cons u us => rw [joinWords_cons_cons]; simp
      rw [joinWords_cons_cons, List.reverse_append, List.reverse_cons] at hc
      cases hJr : (joinWords (v :: vs')).reverse with
      | nil => rw [List.reverse_eq_nil_iff] at hJr; exact absurd hJr hJ
      | cons a t =>
        rw [hJr] at hc
        have hac : a = c := by simpa using hc
        apply ih (fun u hu => h u (by simp [hu])) c
        rw [hJr, hac]
        rfl

theorem camel_eq_self : ∀ {l : List Nat}, (∀ c ∈ l, ¬ isUpperA c) → camel l = l := by
  intro l
  induction l with
  | nil => intro _; rfl
  | cons a t ih =>
    intro h
    cases t with
    | nil => rfl
    | cons b r =>
      have hb : ¬ isUpperA b := h b (by simp)
      show camel (a :: b :: r) = a :: b :: r
      simp only [camel]
      rw [if_neg (fun hc => hb hc.2)]
      rw [ih (fun c hc => h c (List.mem_cons_of_mem a hc))]

theorem pyStrip_eq_self {l : List Nat}
    (h1 : ∀ c, l.head? = some c → ¬ isPySpace c)
    (h2 : ∀ c, l.reverse.head? = some c → ¬ isPySpace c) : pyStrip l = l := by
  unfold pyStrip
  have e1 : l.dropWhile (fun c => decide (isPySpace c)) = l := by
    cases l with
    | nil => rfl
    | cons a t =>
      rw [List.dropWhile_cons, if_neg (by simpa using h1 a rfl)]
  rw [e1]
  have e2 : l.reverse.dropWhile (fun c => decide (isPySpace c)) = l.reverse := by
    cases hr : l.reverse with
    | nil => rfl
    | cons a t =>
      rw [List.dropWhile_cons, if_neg (by simpa using h2 a (by rw [hr]; rfl))]
  rw [e2, List.reverse_reverse]

/-- The properties of a collapsed string `' '.join(l.split())` built from a
fully lowercased text `L`: it is strip-fixed, lower-fixed, untouched by the
camelCase splitter, and splitting it recovers the words of `L`. -/
theorem joinWords_words_props (L : List Nat)
    (hfix : ∀ c ∈ L, lowerN c = c) (hnoup : ∀ c ∈ L, ¬ isUpperA c) :
    pyStrip (joinWords (words L)) = joinWords (words L) ∧
    lowerL (joinWords (words L)) = joinWords (words L) ∧
    camel (joinWords (words L)) = joinWords (words L) ∧
    words (joinWords (words L)) = words L := by
  have hwords : ∀ w ∈ words L, w ≠ [] ∧ ∀ c ∈ w, ¬ isPySpace c :=
    fun w hw => ⟨(words_mem w hw).1, fun c hc => ((words_mem w hw).2 c hc).1⟩
  have hchar : ∀ c ∈ joinWords (words L), c = 32 ∨ c ∈ L := by
    intro c hc
    rcases mem_joinWords hc with h | ⟨w, hw, hcw⟩
    · exact Or.inl h
    · exact Or.inr ((words_mem w hw).2 c hcw).2
  refine ⟨?_, ?_, ?_, ?_⟩
  · exact pyStrip_eq_self (joinWords_head_not_space (words L) hwords)
      (joinWords_revhead_not_space (words L) hwords)
  · apply map_eq_self_of_fixed
    intro c hc
    rcases hchar c hc with h | h
    · subst h; decide
    · exact hfix c h
  · apply camel_eq_self
    intro c hc
    rcases hchar c hc with h | h
    · subst h; decide
    · exact hnoup c h
  · exact words_joinWords (words L) hwords

/-- The non-wifi output of the normalizer is a fixed point of the
normalizer. -/
theorem normalized_fixed (x : List Nat) :
    normalize_amenity (joinWords (words (lowerL (camel x)))) =
      joinWords (words (lowerL (camel x))) := by
  have hfix : ∀ c ∈ lowerL (camel x), lowerN c = c := by
    intro c hc
    obtain ⟨d, _, rfl⟩ := List.mem_map.mp hc
    exact lowerN_idem d
  have hnoup : ∀ c ∈ lowerL (camel x), ¬ isUpperA c := by
    intro c hc
    obtain ⟨d, _, rfl⟩ := List.mem_map.mp hc
    exact lowerN_not_upper d
  obtain ⟨hstrip, hlower, hcamel, hround⟩ := joinWords_words_props (lowerL (camel x)) hfix hnoup
  unfold normalize_amenity
  split
  · rename_i hcond
    rw [hstrip, hlower] at hcond
    exact hcond.symm
  · rw [hcamel, hlower, hround]

theorem lowerL_fix (x : List Nat) : ∀ c ∈ lowerL x, lowerN c = c := by
  intro c hc
  obtain ⟨d, _, rfl⟩ := List.mem_map.mp hc
  exact lowerN_idem d

theorem lowerL_noup (x : List Nat) : ∀ c ∈ lowerL x, ¬ isUpperA c := by
  intro c hc
  obtain ⟨d, _, rfl⟩ := List.mem_map.mp hc
  exact lowerN_not_upper d

theorem normalize_idem_aux (l : PyStr) :
    normalize_amenity (normalize_amenity l) = normalize_amenity l := by
  by_cases h : lowerL (pyStrip l) = pstr "wifi"
  · have h1 : normalize_amenity l = pstr "wifi" := by
      unfold normalize_amenity
      rw [if_pos h]
    rw [h1]
    decide
  · have h1 : normalize_amenity l = joinWords (words (lowerL (camel l))) := by
      unfold normalize_amenity
      rw [if_neg h]
    rw [h1, normalized_fixed]

/-- The normalizer's output is always collapsed (join of its own words),
lowercase-fixed and strip-fixed. -/
theorem normalize_shape (l : PyStr) :
    joinWords (words (normalize_amenity l)) = normalize_amenity l ∧
    lowerL (normalize_amenity l) = normalize_amenity l ∧
    pyStrip (normalize_amenity l) = normalize_amenity l := by
  by_cases h : lowerL (pyStrip l) = pstr "wifi"
  · have h1 : normalize_amenity l = pstr "wifi" := by
      unfold normalize_amenity
      rw [if_pos h]
    rw [h1]
    refine ⟨by decide, by decide, by decide⟩
  · have h1 : normalize_amenity l = joinWords (words (lowerL (camel l))) := by
      unfold normalize_amenity
      rw [if_neg h]
    obtain ⟨hstrip, hlower, _, hround⟩ :=
      joinWords_words_props (lowerL (camel l)) (lowerL_fix (camel l)) (lowerL_noup (camel l))
    rw [h1]
    exact ⟨by rw [hround], hlower, hstrip⟩

theorem merge_amenities_mem_fixed_aux : ∀ (A B : List PyStr) (s : PyStr),
    s ∈ merge_amenities A B → normalize_amenity s = s := by
  intro A B s hs
  unfold merge_amenities at hs
  rw [List.mem_dedup, List.mem_append] at hs
  rcases hs with h | h
  · obtain ⟨a, _, rfl⟩ := List.mem_map.mp h
    exact normalize_idem_aux a
  · obtain ⟨b, _, rfl⟩ := List.mem_map.mp h
    exact normalize_idem_aux b

theorem mem_key_merge (A B : List PyStr) (k : PyStr) :
    (∃ s ∈ merge_amenities A B, normalize_amenity s = k) ↔
      (∃ a ∈ A, normalize_amenity a = k) ∨ (∃ b ∈ B, normalize_amenity b = k) := by
  constructor
  · rintro ⟨s, hs, hk⟩
    unfold merge_amenities at hs
    rw [List.mem_dedup, List.mem_append] at hs
    rcases hs with h | h
    · obtain ⟨a, ha, rfl⟩ := List.mem_map.mp h
      exact Or.inl ⟨a, ha, by rw [← hk, normalize_idem_aux]⟩
    · obtain ⟨b, hb, rfl⟩ := List.mem_map.mp h
      exact Or.inr ⟨b, hb, by rw [← hk, normalize_idem_aux]⟩
  · intro h
    have mk : ∀ (t : PyStr), normalize_amenity t = k →
        normalize_amenity (normalize_amenity t) = k := by
      intro t ht
      rw [normalize_idem_aux, ht]
    rcases h with ⟨a, ha, hk⟩ | ⟨b, hb, hk⟩
    · refine ⟨normalize_amenity a, ?_, mk a hk⟩
      unfold merge_amenities
      rw [List.mem_dedup, List.mem_append]
      exact Or.inl (List.mem_map_of_mem _ ha)
    · refine ⟨normalize_amenity b, ?_, mk b hk⟩
      unfold merge_amenities
      rw [List.mem_dedup, List.mem_append]
      exact Or.inr (List.mem_map_of_mem _ hb)

/-- C4: `normalize_amenity` is idempotent: normalizing an already-normalized
amenity label changes nothing. -/
theorem c4_normalize_idempotent :
    ∀ l : PyStr, normalize_amenity (normalize_amenity l) = normalize_amenity l :=
  fun l => normalize_idem_aux l

/-- C10: every element of a `merge_amenities` result is a fixed point of
`normalize_amenity`: the stored literal after any amenity merge is the
canonical form itself. -/
theorem c10_merge_amenities_stores_canonical : ∀ (A B : List PyStr) (s : PyStr),
    s ∈ merge_amenities A B → normalize_amenity s = s :=
  merge_amenities_mem_fixed_aux

theorem c10_merge_amenities_stores_canonical_witness :
    normalize_amenity (pstr "wifi") = pstr "wifi" :=
  c10_merge_amenities_stores_canonical [pstr "WiFi"] [] (pstr "wifi") (by decide)

/-- C5: amenity merging is idempotent and commutative at the canonical-key
level: the canonical keys of `merge_amenities A B` are exactly the union of
the canonical keys of `A` and of `B`; merging is key-commutative,
key-idempotent, and two successive merges yield the union of the three key
sets regardless of nesting. -/
theorem c5_amenity_union_keys :
    (∀ (A B : List PyStr) (k : PyStr),
      (∃ s ∈ merge_amenities A B, normalize_amenity s = k) ↔
        (∃ a ∈ A, normalize_amenity a = k) ∨ (∃ b ∈ B, normalize_amenity b = k)) ∧
    (∀ (A B : List PyStr) (k : PyStr),
      (∃ s ∈ merge_amenities A B, normalize_amenity s = k) ↔
        (∃ s ∈ merge_amenities B A, normalize_amenity s = k)) ∧
    (∀ (A : List PyStr) (k : PyStr),
      (∃ s ∈ merge_amenities A A, normalize_amenity s = k) ↔
        (∃ a ∈ A, normalize_amenity a = k)) ∧
    (∀ (X Y Z : List PyStr) (k : PyStr),
      (∃ s ∈ merge_amenities (merge_amenities X Y) Z, normalize_amenity s = k) ↔
        ((∃ a ∈ X, normalize_amenity a = k) ∨ (∃ a ∈ Y, normalize_amenity a = k) ∨
          (∃ a ∈ Z, normalize_amenity a = k))) := by
  refine ⟨mem_key_merge, ?_, ?_, ?_⟩
  · intro A B k
    rw [mem_key_merge, mem_key_merge]
    exact or_comm
  · intro A k
    rw [mem_key_merge]
    exact or_self_iff
  · intro X Y Z k
    rw [mem_key_merge, mem_key_merge, or_assoc]

/-- C8: the normalizer maps every input whose trimmed, lowercased form is
"wifi" to exactly "wifi"; every other input goes through camelCase boundary
splitting, lowercasing and whitespace collapsing; its output is always
collapsed, lowercase and trimmed; and the spec's examples hold. -/
theorem c8_normalize_spec :
    (∀ l : PyStr, lowerL (pyStrip l) = pstr "wifi" → normalize_amenity l = pstr "wifi") ∧
    (∀ l : PyStr, lowerL (pyStrip l) ≠ pstr "wifi" →
      normalize_amenity l = joinWords (words (lowerL (camel l)))) ∧
    (∀ l : PyStr, joinWords (words (normalize_amenity l)) = normalize_amenity l ∧
      lowerL (normalize_amenity l) = normalize_amenity l ∧
      pyStrip (normalize_amenity l) = normalize_amenity l) ∧
    normalize_amenity (pstr "WiFi") = pstr "wifi" ∧
    normalize_amenity (pstr "wifi") = pstr "wifi" ∧
    normalize_amenity (pstr "Wifi") = pstr "wifi" ∧
    normalize_amenity (pstr "BusinessCenter") = pstr "business center" := by
  refine ⟨?_, ?_, normalize_shape, by decide, by decide, by decide, by decide⟩
  · intro l h
    unfold normalize_amenity
    rw [if_pos h]
  · intro l h
    unfold normalize_amenity
    rw [if_neg h]

/-! ### The keyed image-bucket merge -/

theorem upsertImg_links_true {acc : List Image} {img : Image}
    (h : acc.any (fun e => decide (e.link = img.link)) = true) :
    (upsertImg acc img).map Image.link = acc.map Image.link := by
  unfold upsertImg
  rw [if_pos h, List.map_map]
  apply List.map_congr_left
  intro e _
  by_cases he : e.link = img.link
  · simp [he]
  · simp [he]

theorem upsertImg_links_false {acc : List Image} {img : Image}
    (h : acc.any (fun e => decide (e.link = img.link)) = false) :
    (upsertImg acc img).map Image.link = acc.map Image.link ++ [img.link] := by
  unfold upsertImg
  rw [if_neg (by simp [h])]
  simp

theorem not_mem_links_of_any_false {acc : List Image} {img : Image}
    (h : acc.any (fun e => decide (e.link = img.link)) = false) :
    img.link ∉ acc.map Image.link := by
  intro hmem
  obtain ⟨e, he, hel⟩ := List.mem_map.mp hmem
  rw [List.any_eq_false] at h
  exact h e he (by simp [hel])

theorem links_upsertImg (acc : List Image) (img : Image) (k : PyStr) :
    k ∈ (upsertImg acc img).map Image.link ↔ k ∈ acc.map Image.link ∨ k = img.link := by
  cases hany : acc.any (fun e => decide (e.link = img.link)) with
  | true =>
    rw [upsertImg_links_true hany]
    constructor
    · exact Or.inl
    · rintro (h | rfl)
      · exact h
      · obtain ⟨e, he, hel⟩ := List.any_eq_true.mp hany
        rw [decide_eq_true_iff] at hel
        exact List.mem_map.mpr ⟨e, he, hel⟩
  | false =>
    rw [upsertImg_links_false hany]
    simp

theorem mem_upsertImg {acc : List Image} {img x : Image} :
    x ∈ upsertImg acc img → x ∈ acc ∨ x = img := by
  unfold upsertImg
  split
  · intro hx
    obtain ⟨e, he, hfe⟩ := List.mem_map.mp hx
    by_cases hel : e.link = img.link
    · rw [if_pos hel] at hfe
      exact Or.inr hfe.symm
    · rw [if_neg hel] at hfe
      exact Or.inl (hfe ▸ he)
  · intro hx
    rcases List.mem_append.mp hx with h | h
    · exact Or.inl h
    · simp only [List.mem_singleton] at h
      exact Or.inr h

theorem upsertImg_link_eq {acc : List Image} {img x : Image}
    (hx : x ∈ upsertImg acc img) (hl : x.link = img.link) : x = img := by
  unfold upsertImg at hx
  split at hx
  · obtain ⟨e, he, hfe⟩ := List.mem_map.mp hx
    by_cases hel : e.link = img.link
    · rw [if_pos hel] at hfe
      exact hfe.symm
    · rw [if_neg hel] at hfe
      rw [← hfe] at hl
      exact absurd hl hel
  · rename_i hany
    rcases List.mem_append.mp hx with h | h
    · exfalso
      apply not_mem_links_of_any_false (by simpa using hany)
      rw [← hl]
      exact List.mem_map_of_mem _ h
    · simpa using h

theorem foldl_upsert_nodup : ∀ (l acc : List Image),
    (acc.map Image.link).Nodup → ((l.foldl upsertImg acc).map Image.link).Nodup := by
  intro l
  induction l with
  | nil => intro acc h; exact h
  | cons i rest ih =>
    intro acc h
    rw [List.foldl_cons]
    apply ih
    cases hany : acc.any (fun e => decide (e.link = i.link)) with
    | true => rw [upsertImg_links_true hany]; exact h
    | false =>
      rw [upsertImg_links_false hany]
      rw [List.nodup_append]
      refine ⟨h, by simp, ?_⟩
      intro a ha hb
      simp only [List.mem_singleton] at hb
      subst hb
      exact not_mem_links_of_any_false hany ha

theorem foldl_upsert_mem_links : ∀ (l acc : List Image) (k : PyStr),
    k ∈ (l.foldl upsertImg acc).map Image.link ↔
      k ∈ acc.map Image.link ∨ k ∈ l.map Image.link := by
  intro l
  induction l with
  | nil => intro acc k; simp
  | cons i rest ih =>
    intro acc k
    rw [List.foldl_cons, ih, links_upsertImg]
    simp only [List.map_cons, List.mem_cons]
    tauto

theorem foldl_upsert_mem : ∀ (l acc : List Image) (x : Image),
    x ∈ l.foldl upsertImg acc → x ∈ acc ∨ x ∈ l := by
  intro l
  induction l with
  | nil => intro acc x hx; exact Or.inl hx
  | cons i rest ih =>
    intro acc x hx
    rw [List.foldl_cons] at hx
    rcases ih (upsertImg acc i) x hx with h | h
    · rcases mem_upsertImg h with h' | h'
      · exact Or.inl h'
      · exact Or.inr (by simp [h'])
    · exact Or.inr (by simp [h])

theorem foldl_upsert_from_tail : ∀ (l acc : List Image) (x : Image),
    x ∈ l.foldl upsertImg acc → x.link ∈ l.map Image.link → x ∈ l := by
  intro l
  induction l with
  | nil => intro acc x _ h; simp at h
  | cons i rest ih =>
    intro acc x hx hl
    rw [List.foldl_cons] at hx
    rw [List.map_cons, List.mem_cons] at hl
    by_cases hrest : x.link ∈ rest.map Image.link
    · exact List.mem_cons_of_mem _ (ih (upsertImg acc i) x hx hrest)
    · rcases hl with hl | hl
      · rcases foldl_upsert_mem rest (upsertImg acc i) x hx with h | h
        · rw [upsertImg_link_eq h hl]
          simp
        · exact absurd (List.mem_map_of_mem _ h) hrest
      · exact absurd hl hrest

/-- C6: merging two image buckets unions them deduplicated by `link`: each
link occurs at most once in the result, the result's links are exactly the
links of the two inputs, every merged entry comes from one of the inputs,
and whenever the incoming bucket has an image at a link, the merged entry
at that link (description included) is an incoming one; on the spec's
example the incoming description wins. -/
theorem c6_image_union : ∀ (a b : List Image),
    ((mergeImages a b).map Image.link).Nodup ∧
    (∀ k : PyStr, k ∈ (mergeImages a b).map Image.link ↔
      k ∈ a.map Image.link ∨ k ∈ b.map Image.link) ∧
    (∀ x ∈ mergeImages a b, x ∈ a ∨ x ∈ b) ∧
    (∀ x ∈ mergeImages a b, x.link ∈ b.map Image.link → x ∈ b) ∧
    mergeImages [{ link := pstr "x", description := pstr "a" }]
      [{ link := pstr "x", description := pstr "b" }] =
      [{ link := pstr "x", description := pstr "b" }] := by
  intro a b
  refine ⟨?_, ?_, ?_, ?_, by decide⟩
  · exact foldl_upsert_nodup (a ++ b) [] (by simp)
  · intro k
    unfold mergeImages
    rw [foldl_upsert_mem_links]
    simp
  · intro x hx
    unfold mergeImages at hx
    rcases foldl_upsert_mem (a ++ b) [] x hx with h | h
    · simp at h
    · exact List.mem_append.mp h
  · intro x hx hb
    unfold mergeImages at hx
    rw [List.foldl_append] at hx
    exact foldl_upsert_from_tail b (a.foldl upsertImg []) x hx hb

/-! ### The catalog fold of `merge_and_save` -/

theorem mapPyStr_eq_self {f : PyStr → PyStr} : ∀ {l : List PyStr},
    (∀ c ∈ l, f c = c) → l.map f = l := by
  intro l
  induction l with
  | nil => intro _; rfl
  | cons a t ih =>
    intro h
    simp only [List.map_cons]
    rw [h a (by simp), ih (fun c hc => h c (by simp [hc]))]

theorem merge_amenities_map_nodup (A B : List PyStr) :
    ((merge_amenities A B).map normalize_amenity).Nodup := by
  rw [mapPyStr_eq_self (merge_amenities_mem_fixed_aux A B)]
  unfold merge_amenities
  exact List.nodup_dedup _

theorem mergeHotel_entry_dedup (e x : Hotel) :
    ((mergeHotel e x).amenities.general.map normalize_amenity).Nodup ∧
    ((mergeHotel e x).amenities.room.map normalize_amenity).Nodup ∧
    (mergeHotel e x).booking_conditions.Nodup :=
  ⟨merge_amenities_map_nodup _ _, merge_amenities_map_nodup _ _, List.nodup_dedup _⟩

theorem mergeHotel_id (e x : Hotel) : (mergeHotel e x).id = e.id := rfl

theorem mem_ids_saveOne (s : Catalog) (x : Hotel) : x.id ∈ (saveOne s x).map Hotel.id := by
  unfold saveOne
  split
  · rename_i hany
    obtain ⟨e, he, hex⟩ := List.any_eq_true.mp hany
    rw [decide_eq_true_iff] at hex
    rw [List.map_map]
    refine List.mem_map.mpr ⟨e, he, ?_⟩
    show (if e.id = x.id then mergeHotel e x else e).id = x.id
    rw [if_pos hex, mergeHotel_id]
    exact hex
  · simp

theorem ids_saveOne_sub {s : Catalog} {x : Hotel} {i : PyStr} (h : i ∈ s.map Hotel.id) :
    i ∈ (saveOne s x).map Hotel.id := by
  unfold saveOne
  split
  · rw [List.map_map]
    obtain ⟨e, he, rfl⟩ := List.mem_map.mp h
    refine List.mem_map.mpr ⟨e, he, ?_⟩
    show (if e.id = x.id then mergeHotel e x else e).id = e.id
    by_cases hex : e.id = x.id
    · rw [if_pos hex, mergeHotel_id]
    · rw [if_neg hex]
  · rw [List.map_append]
    exact List.mem_append.mpr (Or.inl h)

theorem mem_foldl_saveOne_zero : ∀ (hs : List Hotel) (s : Catalog) (h : Hotel),
    h ∈ hs.foldl saveOne s → hs.countP (fun x => decide (x.id = h.id)) = 0 → h ∈ s := by
  intro hs
  induction hs with
  | nil => intro s h hm _; exact hm
  | cons x rest ih =>
    intro s h hm hc
    rw [List.foldl_cons] at hm
    rw [List.countP_cons] at hc
    by_cases hxh : x.id = h.id
    · rw [if_pos (by simp [hxh])] at hc
      omega
    · rw [if_neg (by simp [hxh])] at hc
      have hm' : h ∈ saveOne s x := ih (saveOne s x) h hm hc
      unfold saveOne at hm'
      split at hm'
      · obtain ⟨e, he, hfe⟩ := List.mem_map.mp hm'
        by_cases hex : e.id = x.id
        · rw [if_pos hex] at hfe
          exfalso
          apply hxh
          rw [← hfe, mergeHotel_id, hex]
        · rw [if_neg hex] at hfe
          exact hfe ▸ he
      · rcases List.mem_append.mp hm' with h' | h'
        · exact h'
        · exfalso
          simp only [List.mem_singleton] at h'
          exact hxh (by rw [h'])

theorem merged_entry_of_mem : ∀ (rest : List Hotel) (s : Catalog) (i : PyStr),
    i ∈ s.map Hotel.id → 1 ≤ rest.countP (fun x => decide (x.id = i)) →
    ∀ h ∈ rest.foldl saveOne s, h.id = i → ∃ e x, h = mergeHotel e x := by
  intro rest
  induction rest with
  | nil => intro s i _ hc; simp at hc
  | cons y rest' ih =>
    intro s i hi hc h hm hhi
    rw [List.foldl_cons] at hm
    rw [List.countP_cons] at hc
    by_cases hyi : y.id = i
    · by_cases hc' : 1 ≤ rest'.countP (fun x => decide (x.id = i))
      · exact ih (saveOne s y) i (ids_saveOne_sub hi) hc' h hm hhi
      · have hc0 : rest'.countP (fun x => decide (x.id = i)) = 0 := by omega
        have hms : h ∈ saveOne s y :=
          mem_foldl_saveOne_zero rest' (saveOne s y) h hm (by rw [hhi]; exact hc0)
        have hany : s.any (fun e => decide (e.id = y.id)) = true := by
          obtain ⟨e, he, hei⟩ := List.mem_map.mp hi
          exact List.any_eq_true.mpr ⟨e, he, by simp [hei, hyi]⟩
        unfold saveOne at hms
        rw [if_pos hany] at hms
        obtain ⟨e, he, hfe⟩ := List.mem_map.mp hms
        by_cases hey : e.id = y.id
        · rw [if_pos hey] at hfe
          exact ⟨e, y, hfe.symm⟩
        · rw [if_neg hey] at hfe
          exfalso
          apply hey
          rw [hfe, hhi, hyi]
    · have hc1 : 1 ≤ rest'.countP (fun x => decide (x.id = i)) := by
        rw [if_neg (by simp [hyi])] at hc
        omega
      exact ih (saveOne s y) i (ids_saveOne_sub hi) hc1 h hm hhi

theorem merged_of_two : ∀ (hs : List Hotel) (s : Catalog) (h : Hotel),
    h ∈ hs.foldl saveOne s → 2 ≤ hs.countP (fun x => decide (x.id = h.id)) →
    ∃ e x, h = mergeHotel e x := by
  intro hs
  induction hs with
  | nil => intro s h _ hc; simp at hc
  | cons y rest ih =>
    intro s h hm hc
    rw [List.foldl_cons] at hm
    rw [List.countP_cons] at hc
    by_cases hyh : y.id = h.id
    · have hc1 : 1 ≤ rest.countP (fun x => decide (x.id = h.id)) := by
        rw [if_pos (by simp [hyh])] at hc
        omega
      apply merged_entry_of_mem rest (saveOne s y) h.id ?_ hc1 h hm rfl
      rw [← hyh]
      exact mem_ids_saveOne s y
    · rw [if_neg (by simp [hyh])] at hc
      exact ih (saveOne s y) h hm (by omega)

/-- A supplier record carrying amenity spellings that collide on the same
canonical key and a duplicated booking condition. -/
def hotelDupAmen : Hotel :=
  { id := pstr "h1"
    destination_id := 5
    name := pstr "Hotel One"
    location := { lat := none, lng := none, address := [], city := [], country := [] }
    description := []
    amenities := { general := [pstr "WiFi", pstr "wifi"], room := [] }
    images := { rooms := [], site := [], amenities := [] }
    booking_conditions := [pstr "No pets", pstr "No pets"] }

/-- The spec's end-to-end example, first supplier record. -/
def hotelSup1 : Hotel :=
  { id := pstr "h1"
    destination_id := 5
    name := pstr "Hotel One"
    location := { lat := none, lng := none, address := [], city := [], country := [] }
    description := []
    amenities := { general := [pstr "Pool", pstr "WIFI"], room := [pstr "tv"] }
    images := { rooms := [], site := [], amenities := [] }
    booking_conditions := [pstr "No pets"] }

/-- The spec's end-to-end example, second supplier record (same id). -/
def hotelSup2 : Hotel :=
  { id := pstr "h1"
    destination_id := 5
    name := pstr "Hotel 1"
    location := { lat := none, lng := none, address := [], city := [], country := [] }
    description := []
    amenities := { general := [pstr "pool", pstr "BusinessCenter"], room := [pstr "TV"] }
    images := { rooms := [], site := [], amenities := [] }
    booking_conditions := [pstr "No pets", pstr "No smoking"] }

/-- C2 counterexample: a record seen only once is stored verbatim, its
canonical-key amenity duplicates and its duplicate booking-condition
strings included, so the claimed invariant fails for single-occurrence
ids. -/
theorem c2_counterexample :
    hotelDupAmen ∈ merge_and_save [] [hotelDupAmen] ∧
    ¬ ((hotelDupAmen.amenities.general.map normalize_amenity).Nodup ∧
      (hotelDupAmen.amenities.room.map normalize_amenity).Nodup ∧
      hotelDupAmen.booking_conditions.Nodup) := by decide

/-- C2 (amended): every record stored by `merge_and_save` for an id that
occurs at least twice in the processed batch has amenity lists without two
entries sharing a canonical key and duplicate-free booking conditions;
records of ids seen only once are stored verbatim and are exempt. -/
theorem c2_merged_dedup : ∀ (state : Catalog) (hs : List Hotel) (h : Hotel),
    h ∈ merge_and_save state hs →
    2 ≤ hs.countP (fun x => decide (x.id = h.id)) →
    (h.amenities.general.map normalize_amenity).Nodup ∧
    (h.amenities.room.map normalize_amenity).Nodup ∧
    h.booking_conditions.Nodup := by
  intro state hs h hm hc
  obtain ⟨e, x, rfl⟩ := merged_of_two hs state h hm hc
  exact mergeHotel_entry_dedup e x

theorem c2_merged_dedup_witness :
    ((mergeHotel hotelSup1 hotelSup2).amenities.general.map normalize_amenity).Nodup ∧
    ((mergeHotel hotelSup1 hotelSup2).amenities.room.map normalize_amenity).Nodup ∧
    (mergeHotel hotelSup1 hotelSup2).booking_conditions.Nodup :=
  c2_merged_dedup [] [hotelSup1, hotelSup2] (mergeHotel hotelSup1 hotelSup2)
    (by decide) (by decide)

theorem find_saveOne_merge : ∀ (s : Catalog) (x e : Hotel),
    lookupId s x.id = some e → lookupId (saveOne s x) x.id = some (mergeHotel e x) := by
  intro s
  induction s with
  | nil => intro x e h; simp [lookupId] at h
  | cons a s' ih =>
    intro x e h
    unfold lookupId at h
    by_cases hax : a.id = x.id
    · rw [List.find?_cons_of_pos _ (by simp [hax])] at h
      have hae : a = e := by simpa using h
      subst hae
      have hany : (a :: s').any (fun q => decide (q.id = x.id)) = true :=
        List.any_eq_true.mpr ⟨a, by simp, by simp [hax]⟩
      unfold saveOne lookupId
      rw [if_pos hany, List.map_cons, if_pos hax,
        List.find?_cons_of_pos _ (by simp [mergeHotel_id, hax])]
    · rw [List.find?_cons_of_neg _ (by simp [hax])] at h
      have he := List.mem_of_find?_eq_some h
      have hp := List.find?_some h
      rw [decide_eq_true_iff] at hp
      have hany' : s'.any (fun q => decide (q.id = x.id)) = true :=
        List.any_eq_true.mpr ⟨e, he, by simp [hp]⟩
      have ihe := ih x e h
      unfold saveOne at ihe
      rw [if_pos hany'] at ihe
      have hany : (a :: s').any (fun q => decide (q.id = x.id)) = true := by
        rw [List.any_cons]
        simp [hany']
      unfold saveOne lookupId
      rw [if_pos hany, List.map_cons, if_neg hax,
        List.find?_cons_of_neg _ (by simp [hax])]
      exact ihe

/-- C9: merging an incoming record into an existing catalog entry with the
same id replaces the stored entry by the field-merged record and never
changes its `name`, `id` or `destination_id`: the merged entry keeps the
baseline's values for all three. -/
theorem c9_merge_preserves_identity : ∀ (state : Catalog) (incoming e : Hotel),
    lookupId state incoming.id = some e →
    lookupId (merge_and_save state [incoming]) incoming.id = some (mergeHotel e incoming) ∧
    (mergeHotel e incoming).name = e.name ∧
    (mergeHotel e incoming).id = e.id ∧
    (mergeHotel e incoming).destination_id = e.destination_id := by
  intro state incoming e h
  refine ⟨?_, rfl, rfl, rfl⟩
  show lookupId ([incoming].foldl saveOne state) incoming.id = _
  rw [List.foldl_cons, List.foldl_nil]
  exact find_saveOne_merge state incoming e h

theorem c9_merge_preserves_identity_witness :
    lookupId (merge_and_save [hotelSup1] [hotelSup2]) hotelSup2.id =
      some (mergeHotel hotelSup1 hotelSup2) ∧
    (mergeHotel hotelSup1 hotelSup2).name = hotelSup1.name ∧
    (mergeHotel hotelSup1 hotelSup2).id = hotelSup1.id ∧
    (mergeHotel hotelSup1 hotelSup2).destination_id = hotelSup1.destination_id :=
  c9_merge_preserves_identity [hotelSup1] hotelSup2 hotelSup1 (by decide)

/-! ### Location merging -/

theorem merge_location_country (e n : Location) :
    (merge_location e n).country =
      if n.country.length < e.country.length then e.country else n.country := rfl

def locUS : Location :=
  { lat := none, lng := none, address := [], city := [], country := pstr "US" }

def locUnitedStates : Location :=
  { lat := none, lng := none, address := [], city := [], country := pstr "United States" }

def locAB : Location :=
  { lat := none, lng := none, address := [], city := [], country := pstr "AB" }

def locCD : Location :=
  { lat := none, lng := none, address := [], city := [], country := pstr "CD" }

/-- C1 counterexample: two different countries of equal length; the merge
keeps the incoming country, not the existing one, so the tie does not go to
the existing record. -/
theorem c1_tie_counterexample :
    locAB.country.length = locCD.country.length ∧
    locAB.country ≠ locCD.country ∧
    (merge_location locAB locCD).country ≠ locAB.country ∧
    (merge_location locAB locCD).country = locCD.country := by decide

/-- C1 (amended): the merged country is the longer of the two country
strings, but on a tie (equal lengths) the incoming country is kept, not the
existing one; "US" merged with "United States" still yields "United States"
in either argument order. -/
theorem c1_country_longer_wins :
    (∀ e n : Location,
      (merge_location e n).country.length = max e.country.length n.country.length ∧
      ((merge_location e n).country = e.country ∨ (merge_location e n).country = n.country) ∧
      (e.country.length = n.country.length → (merge_location e n).country = n.country)) ∧
    (merge_location locUS locUnitedStates).country = pstr "United States" ∧
    (merge_location locUnitedStates locUS).country = pstr "United States" := by
  refine ⟨?_, by decide, by decide⟩
  intro e n
  rw [merge_location_country]
  refine ⟨?_, ?_, ?_⟩
  · split
    · rename_i h
      exact (Nat.max_eq_left (Nat.le_of_lt h)).symm
    · rename_i h
      exact (Nat.max_eq_right (Nat.le_of_not_lt h)).symm
  · split
    · exact Or.inl rfl
    · exact Or.inr rfl
  · intro heq
    rw [if_neg (by omega)]

/-! ### The address rule (C7) -/

theorem merge_location_address (e n : Location) :
    (merge_location e n).address =
      if e.address ≠ [] then
        (splitCS n.address []).foldl
          (fun acc item =>
            if item ≠ [] ∧ item ∉ splitCS e.address [] then acc ++ (44 :: 32 :: item)
            else acc)
          e.address
      else n.address := rfl

/-- The address rule exactly as the spec sentence states it: the
comma-separated segments of an address are the nonempty parts of its
`', '`-split; when the existing address is nonempty, each segment of the
incoming address that is not already a segment of the existing address
(literal, case-sensitive comparison) is appended comma-separated; when the
existing address is empty, the incoming address is adopted verbatim. -/
def addressSpecC7 (existing incoming : PyStr) : PyStr :=
  if existing = [] then incoming
  else
    ((splitCS incoming []).filter (fun seg => decide (seg ≠ []))).foldl
      (fun acc seg =>
        if seg ∈ (splitCS existing []).filter (fun s => decide (s ≠ [])) then acc
        else acc ++ (44 :: 32 :: seg))
      existing

theorem foldl_filter_ite {p : PyStr → Bool} (g : PyStr → PyStr → PyStr) :
    ∀ (l : List PyStr) (a : PyStr),
      (l.filter p).foldl g a = l.foldl (fun acc x => if p x then g acc x else acc) a := by
  intro l
  induction l with
  | nil => intro a; rfl
  | cons x t ih =>
    intro a
    rw [List.filter_cons]
    by_cases hx : p x
    · rw [if_pos hx, List.foldl_cons, List.foldl_cons, if_pos hx, ih]
    · rw [if_neg hx, List.foldl_cons, if_neg (by simpa using hx), ih]

/-- C7: the merged address is exactly the spec's address rule, and the
spec's example holds. -/
theorem c7_address_rule :
    (∀ e n : Location, (merge_location e n).address = addressSpecC7 e.address n.address) ∧
    (merge_location
      { lat := none, lng := none, address := pstr "123 Main St", city := [], country := [] }
      { lat := none, lng := none, address := pstr "123 Main St, Suite 5", city := [],
        country := [] }).address = pstr "123 Main St, Suite 5" := by
  refine ⟨?_, by decide⟩
  intro e n
  rw [merge_location_address]
  unfold addressSpecC7
  by_cases he : e.address = []
  · rw [if_neg (by simpa using he), if_pos he]
  · rw [if_pos (by simpa using he), if_neg he]
    rw [foldl_filter_ite]
    apply List.foldl_ext
    intro acc item _
    by_cases hne : item = []
    · simp [hne]
    · by_cases hmem : item ∈ splitCS e.address []
      · simp [hne, hmem, List.mem_filter]
      · simp [hne, hmem, List.mem_filter]

/-- C3: `find` returns all stored hotels whenever either filter is empty or
absent, and otherwise returns exactly the stored hotels whose id is among
`hotel_ids` and whose `destination_id`, in string form, is among
`destination_ids`. -/
theorem c3_find_filter : ∀ (state : Catalog) (hotel_ids destination_ids : Option (List PyStr)),
    ((pyFalsyList hotel_ids || pyFalsyList destination_ids) = true →
      find state hotel_ids destination_ids = state) ∧
    ((pyFalsyList hotel_ids || pyFalsyList destination_ids) = false →
      ∀ h : Hotel, h ∈ find state hotel_ids destination_ids ↔
        h ∈ state ∧ h.id ∈ hotel_ids.getD [] ∧
          intStr h.destination_id ∈ destination_ids.getD []) := by
  intro state hids dids
  constructor
  · intro h
    unfold find
    rw [if_pos h]
  · intro h x
    unfold find
    rw [if_neg (by simp [h]), List.mem_filter]
    simp [and_assoc]
